import Mathlib

set_option maxHeartbeats 1000000

/-!
Verification of the snapshot-manager design: a bounded, in-memory store of
versioned nested numeric payloads with FIFO or comparator-ranked eviction,
composable queries and whole-state persistence.  The Python package
`snapshot_manager` itself is not present in the repository snapshot (only its
test suite is), so the component definitions below are modelled from the
specification document, with the test suite pinning boundary behaviour.
-/

namespace SnapshotMgr

/-- Modelled from the spec: the value tree of the missing TreeCodec component —
a closed recursive type with exactly three variants: an opaque numeric leaf,
an ordered mapping of unique names to subtrees, and an ordered sequence of
subtrees.  Leaves are modelled as integers (the core treats them as opaque
comparable, combinable values). -/
inductive Tree where
  | leaf (v : Int)
  | mapping (entries : List (String × Tree))
  | sequence (children : List Tree)

/-- Modelled from the spec: the structural descriptor of a value tree — its
shape, keys and order, excluding leaf values. -/
inductive Shape where
  | leaf
  | mapping (entries : List (String × Shape))
  | sequence (children : List Shape)

mutual

/-- Boolean structural equality of descriptors (the shape comparison used to
detect StructureMismatch). -/
def Shape.beq : Shape → Shape → Bool
  | .leaf, .leaf => true
  | .mapping es, .mapping fs => beqEntriesS es fs
  | .sequence ss, .sequence ts => beqManyS ss ts
  | _, _ => false

def beqEntriesS : List (String × Shape) → List (String × Shape) → Bool
  | [], [] => true
  | e :: es, f :: fs => e.1 == f.1 && Shape.beq e.2 f.2 && beqEntriesS es fs
  | _, _ => false

def beqManyS : List Shape → List Shape → Bool
  | [], [] => true
  | s :: ss, t :: ts => Shape.beq s t && beqManyS ss ts
  | _, _ => false

end

mutual

theorem Shape.beq_iff : ∀ a b : Shape, Shape.beq a b = true ↔ a = b
  | .leaf, .leaf => by simp [Shape.beq]
  | .leaf, .mapping _ => by simp [Shape.beq]
  | .leaf, .sequence _ => by simp [Shape.beq]
  | .mapping _, .leaf => by simp [Shape.beq]
  | .mapping es, .mapping fs => by
      simp [Shape.beq, beqEntriesS_iff es fs]
  | .mapping _, .sequence _ => by simp [Shape.beq]
  | .sequence _, .leaf => by simp [Shape.beq]
  | .sequence _, .mapping _ => by simp [Shape.beq]
  | .sequence ss, .sequence ts => by
      simp [Shape.beq, beqManyS_iff ss ts]

theorem beqEntriesS_iff : ∀ es fs : List (String × Shape),
    beqEntriesS es fs = true ↔ es = fs
  | [], [] => by simp [beqEntriesS]
  | [], _ :: _ => by simp [beqEntriesS]
  | _ :: _, [] => by simp [beqEntriesS]
  | e :: es, f :: fs => by
      simp [beqEntriesS, Shape.beq_iff e.2 f.2, beqEntriesS_iff es fs,
        Prod.ext_iff]

theorem beqManyS_iff : ∀ ss ts : List Shape,
    beqManyS ss ts = true ↔ ss = ts
  | [], [] => by simp [beqManyS]
  | [], _ :: _ => by simp [beqManyS]
  | _ :: _, [] => by simp [beqManyS]
  | s :: ss, t :: ts => by
      simp [beqManyS, Shape.beq_iff s t, beqManyS_iff ss ts]

end

instance : DecidableEq Shape := fun a b =>
  decidable_of_iff (Shape.beq a b = true) (Shape.beq_iff a b)

mutual

/-- Modelled from the spec: `flatten` of the missing TreeCodec — the ordered
leaf sequence of a tree: mapping entries in key order, sequence entries in
index order, depth first. -/
def Tree.flatten : Tree → List Int
  | .leaf v => [v]
  | .mapping es => flattenEntries es
  | .sequence ts => flattenMany ts

def flattenEntries : List (String × Tree) → List Int
  | [] => []
  | e :: es => e.2.flatten ++ flattenEntries es

def flattenMany : List Tree → List Int
  | [] => []
  | t :: ts => t.flatten ++ flattenMany ts

end

mutual

/-- Modelled from the spec: the structural-descriptor part of `flatten` of the
missing TreeCodec. -/
def Tree.shape : Tree → Shape
  | .leaf _ => .leaf
  | .mapping es => .mapping (shapeEntries es)
  | .sequence ts => .sequence (shapeMany ts)

def shapeEntries : List (String × Tree) → List (String × Shape)
  | [] => []
  | e :: es => (e.1, e.2.shape) :: shapeEntries es

def shapeMany : List Tree → List Shape
  | [] => []
  | t :: ts => t.shape :: shapeMany ts

end

mutual

/-- Number of leaves recorded in a structural descriptor. -/
def Shape.leafCount : Shape → Nat
  | .leaf => 1
  | .mapping es => leafCountEntries es
  | .sequence ss => leafCountMany ss

def leafCountEntries : List (String × Shape) → Nat
  | [] => 0
  | e :: es => e.2.leafCount + leafCountEntries es

def leafCountMany : List Shape → Nat
  | [] => 0
  | s :: ss => s.leafCount + leafCountMany ss

end

mutual

/-- Modelled from the spec: the recursive worker of `unflatten` of the missing
TreeCodec — rebuild a tree of the given shape from a prefix of the leaf list,
returning the rebuilt tree and the unconsumed leaves, or none if the leaves
run out. -/
def unflattenS : Shape → List Int → Option (Tree × List Int)
  | .leaf, [] => none
  | .leaf, v :: rest => some (.leaf v, rest)
  | .mapping es, ls =>
      match unflattenEntries es ls with
      | none => none
      | some (res, rest) => some (.mapping res, rest)
  | .sequence ss, ls =>
      match unflattenMany ss ls with
      | none => none
      | some (res, rest) => some (.sequence res, rest)

def unflattenEntries : List (String × Shape) → List Int →
    Option (List (String × Tree) × List Int)
  | [], ls => some ([], ls)
  | e :: es, ls =>
      match unflattenS e.2 ls with
      | none => none
      | some (t, rest) =>
        match unflattenEntries es rest with
        | none => none
        | some (res, rest2) => some ((e.1, t) :: res, rest2)

def unflattenMany : List Shape → List Int →
    Option (List Tree × List Int)
  | [], ls => some ([], ls)
  | s :: ss, ls =>
      match unflattenS s ls with
      | none => none
      | some (t, rest) =>
        match unflattenMany ss rest with
        | none => none
        | some (res, rest2) => some (t :: res, rest2)

end

/-- Modelled from the spec: `unflatten` of the missing TreeCodec — rebuild a
tree from a descriptor and a leaf list; fails (StructureMismatch) when the
leaf count does not equal the descriptor leaf count. -/
def unflatten (sh : Shape) (ls : List Int) : Option Tree :=
  match unflattenS sh ls with
  | some (t, []) => some t
  | _ => none

mutual

/-- Modelled from the spec: `map_leaves` of the missing TreeCodec — replace
every leaf `v` by `f v`, keeping the structure identical. -/
def Tree.mapLeaves (f : Int → Int) : Tree → Tree
  | .leaf v => .leaf (f v)
  | .mapping es => .mapping (mapLeavesEntries f es)
  | .sequence ts => .sequence (mapLeavesMany f ts)

def mapLeavesEntries (f : Int → Int) : List (String × Tree) → List (String × Tree)
  | [] => []
  | e :: es => (e.1, e.2.mapLeaves f) :: mapLeavesEntries f es

def mapLeavesMany (f : Int → Int) : List Tree → List Tree
  | [] => []
  | t :: ts => t.mapLeaves f :: mapLeavesMany f ts

end

/-- Modelled from the spec: a metadata scalar of the missing SnapshotRecord —
either a string or a numeric value. -/
inductive Scalar where
  | str (s : String)
  | num (q : Rat)
deriving DecidableEq

/-- Metadata is a string-to-scalar mapping, kept as an ordered association
list with unique keys. -/
abbrev Metadata := List (String × Scalar)

/-- Look a key up in a metadata mapping. -/
def lookupMeta (md : Metadata) (k : String) : Option Scalar :=
  (md.find? (fun p => p.1 == k)).map (fun p => p.2)

/-- Set one key of a metadata mapping, overwriting on collision. -/
def setMeta (md : Metadata) (k : String) (v : Scalar) : Metadata :=
  if md.any (fun p => p.1 == k) then
    md.map (fun p => if p.1 = k then (p.1, v) else p)
  else md ++ [(k, v)]

/-- Modelled from the spec: the merge-update of `update_metadata` of the
missing SnapshotManager — merge the partial mapping into the existing one,
overwriting on collision. -/
def mergeMeta (md upd : Metadata) : Metadata :=
  upd.foldl (fun acc p => setMeta acc p.1 p.2) md

/-- Modelled from the spec: the missing SnapshotRecord component — one
identified, versioned value tree plus metadata, tags and the monotonically
increasing insertion counter used for FIFO order and eviction tie-break. -/
structure SnapshotRecord where
  id : String
  tree : Tree
  metadata : Metadata
  tags : List String
  insertion_seq : Nat

/-- A comparator over two records (three-way, on their fitness). -/
abbrev Cmp := SnapshotRecord → SnapshotRecord → Ordering

/-- Modelled from the spec: the strict lower-fitness order of the missing
SnapshotStore — `a` is lower than `b` when the comparator says so, ties
broken by insertion order (the earlier-inserted record is lower). -/
def lowerRank (cmp : Cmp) (a b : SnapshotRecord) : Bool :=
  match cmp a b with
  | .lt => true
  | .eq => decide (a.insertion_seq < b.insertion_seq)
  | .gt => false

/-- Modelled from the spec: the missing SnapshotStore component — ordered id
list plus id-to-record mapping, a capacity bound, and an optional
comparator. -/
structure SnapshotStore where
  snapshot_order : List String
  snapshots : List (String × SnapshotRecord)
  max_snapshots : Nat
  cmp_function : Option Cmp

/-- The records of a store, in insertion order. -/
def SnapshotStore.records (s : SnapshotStore) : List SnapshotRecord :=
  s.snapshots.map (fun e => e.2)

/-- The ids present in the id-to-record mapping. -/
def SnapshotStore.ids (s : SnapshotStore) : List String :=
  s.snapshots.map (fun e => e.1)

/-- Find the record mapped to an id, if any. -/
def SnapshotStore.findRecord (s : SnapshotStore) (id : String) :
    Option SnapshotRecord :=
  (s.snapshots.find? (fun p => p.1 == id)).map (fun p => p.2)

/-- Remove an id from both the ordering list and the mapping. -/
def SnapshotStore.removeId (s : SnapshotStore) (id : String) : SnapshotStore :=
  { s with snapshot_order := s.snapshot_order.erase id,
           snapshots := s.snapshots.filter (fun p => decide (p.1 ≠ id)) }

/-- Append a record at the end of both the ordering list and the mapping. -/
def SnapshotStore.appendRecord (s : SnapshotStore) (r : SnapshotRecord) :
    SnapshotStore :=
  { s with snapshot_order := s.snapshot_order ++ [r.id],
           snapshots := s.snapshots ++ [(r.id, r)] }

/-- Rewrite one record of the mapping in place. -/
def SnapshotStore.modifyRecord (s : SnapshotStore) (id : String)
    (f : SnapshotRecord → SnapshotRecord) : SnapshotStore :=
  { s with snapshots :=
      s.snapshots.map (fun p => if p.1 = id then (p.1, f p.2) else p) }

/-- The entry with the smallest insertion counter (the oldest), when the
mapping is nonempty. -/
def oldestEntry : List (String × SnapshotRecord) →
    Option (String × SnapshotRecord)
  | [] => none
  | e :: es => some (es.foldl
      (fun m x => if x.2.insertion_seq < m.2.insertion_seq then x else m) e)

/-- The entry of lowest fitness under the comparator (ties broken toward the
earlier-inserted record), when the mapping is nonempty. -/
def lowestEntry (cmp : Cmp) : List (String × SnapshotRecord) →
    Option (String × SnapshotRecord)
  | [] => none
  | e :: es => some (es.foldl
      (fun m x => if lowerRank cmp x.2 m.2 then x else m) e)

/-- Modelled from the spec: `insert` of the missing SnapshotStore — append
while below capacity; at capacity, without a comparator evict the oldest
record and append, with a comparator reject the new record when it is the
minimum-fitness candidate and otherwise evict the single lowest-fitness
existing record and append. -/
def SnapshotStore.insert (s : SnapshotStore) (r : SnapshotRecord) :
    SnapshotStore :=
  if s.snapshot_order.length < s.max_snapshots then s.appendRecord r
  else
    match s.cmp_function with
    | none =>
        match oldestEntry s.snapshots with
        | none => s.appendRecord r
        | some e => (s.removeId e.1).appendRecord r
    | some cmp =>
        if s.snapshots.all (fun p => lowerRank cmp r p.2) then s
        else
          match lowestEntry cmp s.snapshots with
          | none => s.appendRecord r
          | some e => (s.removeId e.1).appendRecord r

/-- The descending-rank relation: `a` is ranked at least as high as `b` when
`a` is not of lower fitness than `b`. -/
def rankGE (cmp : Cmp) (a b : SnapshotRecord) : Prop :=
  lowerRank cmp a b = false

instance (cmp : Cmp) : DecidableRel (rankGE cmp) := fun a b => by
  unfold rankGE; infer_instance

/-- Modelled from the spec: `ranked_ids` of the missing SnapshotStore — ids
sorted by comparator descending (best fitness first) when a comparator is
configured, insertion order otherwise. -/
def SnapshotStore.ranked_ids (s : SnapshotStore) : List String :=
  match s.cmp_function with
  | none => s.snapshot_order
  | some cmp => (List.insertionSort (rankGE cmp) s.records).map (fun r => r.id)

/-- A boundary error: the Python exception type together with its message. -/
structure PyErr where
  pyType : String
  msg : String
deriving DecidableEq

/-- Modelled from the spec and pinned by the test suite: the NotFound
condition surfaces as a Python KeyError with this message. -/
def notFoundErr (id : String) : PyErr :=
  { pyType := "KeyError", msg := "Snapshot with ID " ++ id ++ " not found" }

/-- The DuplicateID condition for a caller-supplied id that already exists. -/
def duplicateErr (id : String) : PyErr :=
  { pyType := "DuplicateID", msg := "Snapshot with ID " ++ id ++ " already exists" }

/-- The StructureMismatch condition of unflatten / zip-combine. -/
def structureMismatchErr : PyErr :=
  { pyType := "StructureMismatch", msg := "PyTree structures do not match" }

/-- Modelled from the spec: the missing SnapshotManager façade — the storage
component plus the insertion counter, the id-generation counter and the
copy-policy defaults (copying is the identity under the value semantics of
this embedding). -/
structure SnapshotManager where
  storage : SnapshotStore
  next_seq : Nat
  id_counter : Nat
  deepcopy_on_save : Bool
  deepcopy_on_retrieve : Bool

/-- A freshly constructed manager with the given capacity and comparator. -/
def mkManager (max_snapshots : Nat) (cmp : Option Cmp)
    (dcs dcr : Bool) : SnapshotManager :=
  { storage := { snapshot_order := [], snapshots := [],
                 max_snapshots := max_snapshots, cmp_function := cmp },
    next_seq := 0, id_counter := 0,
    deepcopy_on_save := dcs, deepcopy_on_retrieve := dcr }

/-- The id used by save: the supplied one, or a generated one. -/
def resolveId (m : SnapshotManager) (snapshot_id : Option String) : String :=
  match snapshot_id with
  | some i => i
  | none => "snapshot_" ++ toString m.id_counter

/-- Modelled from the spec: `save_snapshot` of the missing SnapshotManager —
generate an id if none is supplied, fail with DuplicateID if the id already
exists, build a record with a fresh insertion counter and delegate to
`SnapshotStore.insert`; the id is returned even when the ranked-rejection
path silently discards the record. -/
def SnapshotManager.save_snapshot (m : SnapshotManager) (tree : Tree)
    (snapshot_id : Option String) (metadata : Metadata) (tags : List String) :
    Except PyErr (SnapshotManager × String) :=
  let id := resolveId m snapshot_id
  if (m.storage.findRecord id).isSome then .error (duplicateErr id)
  else
    let r : SnapshotRecord :=
      { id := id, tree := tree, metadata := metadata, tags := tags,
        insertion_seq := m.next_seq }
    .ok ({ m with storage := m.storage.insert r,
                  next_seq := m.next_seq + 1,
                  id_counter := match snapshot_id with
                    | none => m.id_counter + 1
                    | some _ => m.id_counter }, id)

/-- Modelled from the spec: `get_snapshot` of the missing SnapshotManager —
the stored tree, or NotFound (a KeyError) when the id is absent. -/
def SnapshotManager.get_snapshot (m : SnapshotManager) (id : String) :
    Except PyErr Tree :=
  match m.storage.findRecord id with
  | some r => .ok r.tree
  | none => .error (notFoundErr id)

/-- Modelled from the spec: `get_metadata` of the missing SnapshotManager. -/
def SnapshotManager.get_metadata (m : SnapshotManager) (id : String) :
    Except PyErr Metadata :=
  match m.storage.findRecord id with
  | some r => .ok r.metadata
  | none => .error (notFoundErr id)

/-- Modelled from the spec: `get_tags` of the missing SnapshotManager. -/
def SnapshotManager.get_tags (m : SnapshotManager) (id : String) :
    Except PyErr (List String) :=
  match m.storage.findRecord id with
  | some r => .ok r.tags
  | none => .error (notFoundErr id)

/-- Modelled from the spec: `update_metadata` of the missing SnapshotManager
— merge keys into the existing metadata, overwriting on collision; NotFound
when the id is absent, all-or-nothing. -/
def SnapshotManager.update_metadata (m : SnapshotManager) (id : String)
    (upd : Metadata) : Except PyErr SnapshotManager :=
  if (m.storage.findRecord id).isSome then
    .ok { m with storage := (m.storage.modifyRecord id
            (fun r => { r with metadata := mergeMeta r.metadata upd })) }
  else .error (notFoundErr id)

/-- Union of tag sets, keeping first-seen order. -/
def addTagList (tags new : List String) : List String :=
  new.foldl (fun acc t => if t ∈ acc then acc else acc ++ [t]) tags

/-- Set difference of tag sets; removing an absent tag is a no-op. -/
def removeTagList (tags rem : List String) : List String :=
  tags.filter (fun t => decide (t ∉ rem))

/-- Modelled from the spec: `add_tags` of the missing SnapshotManager. -/
def SnapshotManager.add_tags (m : SnapshotManager) (id : String)
    (tags : List String) : Except PyErr SnapshotManager :=
  if (m.storage.findRecord id).isSome then
    .ok { m with storage := (m.storage.modifyRecord id
            (fun r => { r with tags := addTagList r.tags tags })) }
  else .error (notFoundErr id)

/-- Modelled from the spec: `remove_tags` of the missing SnapshotManager. -/
def SnapshotManager.remove_tags (m : SnapshotManager) (id : String)
    (tags : List String) : Except PyErr SnapshotManager :=
  if (m.storage.findRecord id).isSome then
    .ok { m with storage := (m.storage.modifyRecord id
            (fun r => { r with tags := removeTagList r.tags tags })) }
  else .error (notFoundErr id)

/-- Modelled from the spec: `remove_snapshot` of the missing SnapshotManager
— remove the id from the ordering list and the mapping atomically; NotFound
when absent. -/
def SnapshotManager.remove_snapshot (m : SnapshotManager) (id : String) :
    Except PyErr SnapshotManager :=
  if (m.storage.findRecord id).isSome then
    .ok { m with storage := m.storage.removeId id }
  else .error (notFoundErr id)

/-- Modelled from the spec: `get_ranked_snapshots` of the missing
SnapshotManager — best-to-worst by comparator, or insertion order. -/
def SnapshotManager.get_ranked_snapshots (m : SnapshotManager) : List String :=
  m.storage.ranked_ids

/-- Modelled from the spec: `update_leaf_nodes` of the missing
SnapshotManager — apply `map_leaves` in place to the named snapshots; never
changes structure or identity. -/
def SnapshotManager.update_leaf_nodes (m : SnapshotManager)
    (ids : List String) (f : Int → Int) : Except PyErr SnapshotManager :=
  match ids.find? (fun id => (m.storage.findRecord id).isNone) with
  | some missing => .error (notFoundErr missing)
  | none =>
      .ok { m with storage := (ids.foldl
        (fun st id => st.modifyRecord id
          (fun r => { r with tree := r.tree.mapLeaves f })) m.storage) }

/-- Modelled from the spec: `update_all_leaf_nodes` of the missing
SnapshotManager — apply `map_leaves` in place to every snapshot. -/
def SnapshotManager.update_all_leaf_nodes (m : SnapshotManager)
    (f : Int → Int) : SnapshotManager :=
  { m with storage := { m.storage with snapshots := (m.storage.snapshots.map
      (fun p => (p.1, { p.2 with tree := p.2.tree.mapLeaves f }))) } }

/-- Fetch the trees of the named snapshots, NotFound on the first absent
id. -/
def collectTrees (m : SnapshotManager) : List String → Except PyErr (List Tree)
  | [] => .ok []
  | id :: rest =>
      match m.storage.findRecord id with
      | none => .error (notFoundErr id)
      | some r =>
          match collectTrees m rest with
          | .error e => .error e
          | .ok ts => .ok (r.tree :: ts)

/-- Modelled from the spec: `zip_combine` of the missing TreeCodec — fail
with StructureMismatch unless every input shares one structural descriptor;
for each leaf position the combine function receives the ordered list of
per-tree leaf values and returns the combined leaf. -/
def zip_combine (ts : List Tree) (f : List Int → Int) : Except PyErr Tree :=
  match ts with
  | [] => .error structureMismatchErr
  | t :: rest =>
      if rest.all (fun u => decide (u.shape = t.shape)) then
        let leafLists := (t :: rest).map Tree.flatten
        let combined := (List.range t.shape.leafCount).map
          (fun k => f (leafLists.map (fun ls => ls.getD k 0)))
        match unflatten t.shape combined with
        | some tr => .ok tr
        | none => .error structureMismatchErr
      else .error structureMismatchErr

/-- Modelled from the spec: `combine_snapshots` of the missing
SnapshotManager — fetch the named trees, verify identical structure,
delegate to `zip_combine`; the result is not persisted. -/
def SnapshotManager.combine_snapshots (m : SnapshotManager)
    (ids : List String) (f : List Int → Int) : Except PyErr Tree :=
  match collectTrees m ids with
  | .error e => .error e
  | .ok ts => zip_combine ts f

/-- Modelled from the spec: the missing QueryPredicate type — metadata, tag,
content and leaf-value predicates, closed under conjunction, disjunction and
negation. -/
inductive Query where
  | ByMetadataQuery (key : String) (value : Scalar)
  | ByTagQuery (tag : String)
  | ByContentQuery (p : Tree → Bool)
  | ByLeafValueQuery (p : Int → Bool)
  | AndQuery (children : List Query)
  | OrQuery (children : List Query)
  | NotQuery (inner : Query)

/-- The full id set of the store at evaluation time. -/
def allIds (s : SnapshotStore) : Finset String :=
  (s.snapshots.map (fun e => e.1)).toFinset

/-- The ids of the records satisfying a predicate. -/
def idsWhere (s : SnapshotStore) (p : SnapshotRecord → Bool) : Finset String :=
  ((s.snapshots.filter (fun e => p e.2)).map (fun e => e.1)).toFinset

mutual

/-- Modelled from the spec: `evaluate` of the missing QueryEngine —
interpreted recursively against the store's current contents; And is the
intersection of its children (empty list gives the full id set), Or the
union (empty list gives the empty set), Not the complement relative to the
full id set at evaluation time. -/
def evaluate : Query → SnapshotStore → Finset String
  | .ByMetadataQuery k v, s =>
      idsWhere s (fun r => decide (lookupMeta r.metadata k = some v))
  | .ByTagQuery t, s => idsWhere s (fun r => decide (t ∈ r.tags))
  | .ByContentQuery p, s => idsWhere s (fun r => p r.tree)
  | .ByLeafValueQuery p, s => idsWhere s (fun r => r.tree.flatten.any p)
  | .AndQuery cs, s => evalAnd cs s
  | .OrQuery cs, s => evalOr cs s
  | .NotQuery q, s => allIds s \ evaluate q s

def evalAnd : List Query → SnapshotStore → Finset String
  | [], s => allIds s
  | c :: cs, s => evaluate c s ∩ evalAnd cs s

def evalOr : List Query → SnapshotStore → Finset String
  | [], _ => ∅
  | c :: cs, s => evaluate c s ∪ evalOr cs s

end

/-- Modelled from the spec: the persisted state payload of the missing
PersistenceCodec — every record, the ordering, the capacity, the comparator
reference or its absence, the copy-policy defaults and the counters. -/
structure StatePayload where
  records : List SnapshotRecord
  snapshot_order : List String
  max_snapshots : Nat
  cmp_function : Option Cmp
  deepcopy_on_save : Bool
  deepcopy_on_retrieve : Bool
  next_seq : Nat
  id_counter : Nat

/-- Modelled from the spec: `save_state` of the missing SnapshotManager —
serialize the full manager state. -/
def SnapshotManager.save_state (m : SnapshotManager) : StatePayload :=
  { records := m.storage.records,
    snapshot_order := m.storage.snapshot_order,
    max_snapshots := m.storage.max_snapshots,
    cmp_function := m.storage.cmp_function,
    deepcopy_on_save := m.deepcopy_on_save,
    deepcopy_on_retrieve := m.deepcopy_on_retrieve,
    next_seq := m.next_seq, id_counter := m.id_counter }

/-- Modelled from the spec: `load_state` of the missing SnapshotManager — a
constructor producing a new manager from a payload, rebuilding the
id-to-record mapping from the serialized records. -/
def SnapshotManager.load_state (p : StatePayload) : SnapshotManager :=
  { storage := { snapshot_order := p.snapshot_order,
                 snapshots := p.records.map (fun r => (r.id, r)),
                 max_snapshots := p.max_snapshots,
                 cmp_function := p.cmp_function },
    next_seq := p.next_seq, id_counter := p.id_counter,
    deepcopy_on_save := p.deepcopy_on_save,
    deepcopy_on_retrieve := p.deepcopy_on_retrieve }

/-- The public mutating operations of the manager, for reachability
statements. -/
inductive Op where
  | save (tree : Tree) (snapshot_id : Option String) (metadata : Metadata)
      (tags : List String)
  | remove (id : String)
  | updMeta (id : String) (upd : Metadata)
  | addTg (id : String) (tags : List String)
  | removeTg (id : String) (tags : List String)
  | updLeaves (ids : List String) (f : Int → Int)
  | updAllLeaves (f : Int → Int)

/-- Apply one public operation; a failed call leaves the manager unchanged
(all failures are detected before any mutation). -/
def applyOp (m : SnapshotManager) : Op → SnapshotManager
  | .save t sid md tg =>
      match m.save_snapshot t sid md tg with
      | .ok r => r.1
      | .error _ => m
  | .remove id =>
      match m.remove_snapshot id with
      | .ok m2 => m2
      | .error _ => m
  | .updMeta id upd =>
      match m.update_metadata id upd with
      | .ok m2 => m2
      | .error _ => m
  | .addTg id tg =>
      match m.add_tags id tg with
      | .ok m2 => m2
      | .error _ => m
  | .removeTg id tg =>
      match m.remove_tags id tg with
      | .ok m2 => m2
      | .error _ => m
  | .updLeaves ids f =>
      match m.update_leaf_nodes ids f with
      | .ok m2 => m2
      | .error _ => m
  | .updAllLeaves f => m.update_all_leaf_nodes f

/-- Apply a sequence of public operations. -/
def applyOps (m : SnapshotManager) (ops : List Op) : SnapshotManager :=
  ops.foldl applyOp m

/-- Store well-formedness: the ordering list is exactly the mapping's key
list, without duplicates, and the id count is within capacity. -/
def Wf (s : SnapshotStore) : Prop :=
  s.snapshot_order = s.snapshots.map (fun e => e.1) ∧
  s.snapshot_order.Nodup ∧
  s.snapshot_order.length ≤ s.max_snapshots

/-- A comparator induced by a fitness function (three-way comparison of the
two records' fitness values, as in the accuracy comparators of the test
suite). -/
def cmpOf (f : SnapshotRecord → Rat) : Cmp := fun a b =>
  if f a < f b then .lt else if f b < f a then .gt else .eq

/-- The accuracy fitness of the test scenarios: the numeric metadata value
under the accuracy key, defaulting to zero. -/
def accOf (r : SnapshotRecord) : Rat :=
  match lookupMeta r.metadata "accuracy" with
  | some (.num q) => q
  | _ => 0

/-- The accuracy-ascending comparator of scenarios A and B. -/
def cmpAcc : Cmp := cmpOf accOf

/-- Save a leaf snapshot under the given id with the given accuracy
metadata, keeping the manager unchanged on failure. -/
def saveAcc (m : SnapshotManager) (id : String) (acc : Rat) : SnapshotManager :=
  applyOp m (.save (.leaf 0) (some id) [("accuracy", .num acc)] [])

/-- The scenario-A manager: capacity 3, accuracy comparator, snapshots with
accuracies 0.5, 0.7 and 0.6. -/
def scenA : SnapshotManager :=
  saveAcc (saveAcc (saveAcc (mkManager 3 (some cmpAcc) true true)
    "snap1" (mkRat 1 2)) "snap2" (mkRat 7 10)) "snap3" (mkRat 3 5)

/-- Scenario A after inserting the accuracy-0.8 snapshot. -/
def scenA4 : SnapshotManager := saveAcc scenA "snap4" (mkRat 4 5)

/-- A two-leaf tree of the combine scenario. -/
def treeC (a b : Int) : Tree := .mapping [("layer1", .sequence [.leaf a, .leaf b])]

/-- The combine-scenario manager holding three structurally identical trees
with leaves [1,2], [4,5] and [7,8]. -/
def mgrComb : SnapshotManager :=
  applyOps (mkManager 5 none true true)
    [.save (treeC 1 2) (some "snapA") [] [],
     .save (treeC 4 5) (some "snapB") [] [],
     .save (treeC 7 8) (some "snapC") [] []]

/-- The mean combine function of scenario C. -/
def meanFn (ls : List Int) : Int :=
  (ls.foldl (fun a b => a + b) 0) / (ls.length : Int)

/-- Fold `SnapshotStore.insert` over a list of records. -/
def insertAll (s : SnapshotStore) (rs : List SnapshotRecord) : SnapshotStore :=
  rs.foldl SnapshotStore.insert s

/-- The empty capacity-2 store used to instantiate the FIFO claim. -/
def fifoStore : SnapshotStore := (mkManager 2 none true true).storage

/-- Three records with distinct ids and increasing insertion counters, used
to instantiate the FIFO claim. -/
def fifoRecs : List SnapshotRecord :=
  [SnapshotRecord.mk "r1" (.leaf 1) [] [] 0,
   SnapshotRecord.mk "r2" (.leaf 2) [] [] 1,
   SnapshotRecord.mk "r3" (.leaf 3) [] [] 2]

/-- A small concrete manager used to instantiate persistence claims. -/
def mgrP : SnapshotManager :=
  applyOps (mkManager 5 none true true)
    [.save (.leaf 1) (some "s1") [("key", .str "value1")] ["t1"],
     .save (.leaf 2) (some "s2") [("key", .str "value2")] []]

/-! ### Helper lemmas about the id-to-record mapping -/

theorem findRecord_eq_none_iff (s : SnapshotStore) (id : String) :
    s.findRecord id = none ↔ id ∉ s.ids := by
  unfold SnapshotStore.findRecord SnapshotStore.ids
  rw [Option.map_eq_none', List.find?_eq_none]
  constructor
  · intro h hmem
    obtain ⟨e, he, heq⟩ := List.mem_map.mp hmem
    exact h e he (by simpa using heq)
  · intro h e he
    simp only [beq_iff_eq]
    intro heq
    exact h (List.mem_map.mpr ⟨e, he, heq⟩)

theorem find?_filter_ne (l : List (String × SnapshotRecord)) (x y : String)
    (hxy : x ≠ y) :
    (l.filter (fun p => decide (p.1 ≠ x))).find? (fun p => p.1 == y) =
      l.find? (fun p => p.1 == y) := by
  induction l with
  | nil => rfl
  | cons e l ih =>
      by_cases hex : e.1 = x
      · have hey : (e.1 == y) = false := by
          rw [hex]
          simpa using hxy
        rw [List.filter_cons, if_neg (by simp [hex]), ih, List.find?_cons, hey]
      · rw [List.filter_cons, if_pos (by simp [hex]), List.find?_cons,
          List.find?_cons]
        cases hey : (e.1 == y) with
        | true => rfl
        | false => exact ih

theorem find?_eq_none_of_filter (l : List (String × SnapshotRecord))
    (p : String × SnapshotRecord → Bool) (q : String × SnapshotRecord → Bool)
    (h : l.find? p = none) : (l.filter q).find? p = none := by
  rw [List.find?_eq_none] at h ⊢
  intro x hx
  exact h x (List.mem_of_mem_filter hx)

theorem find?_append_fresh (l : List (String × SnapshotRecord))
    (e : String × SnapshotRecord) (y : String)
    (h : l.find? (fun p => p.1 == y) = none) :
    (l ++ [e]).find? (fun p => p.1 == y) =
      if e.1 == y then some e else none := by
  rw [List.find?_append, h]
  simp only [Option.none_or]
  rw [List.find?_cons]
  cases hpe : (e.1 == y) with
  | true => simp [hpe]
  | false => simp [hpe]

theorem findRecord_removeId_ne (s : SnapshotStore) (x y : String)
    (hxy : x ≠ y) : (s.removeId x).findRecord y = s.findRecord y := by
  unfold SnapshotStore.removeId SnapshotStore.findRecord
  simp only
  rw [find?_filter_ne s.snapshots x y hxy]

theorem findRecord_removeId_none (s : SnapshotStore) (x y : String)
    (h : s.findRecord y = none) : (s.removeId x).findRecord y = none := by
  unfold SnapshotStore.findRecord at h
  unfold SnapshotStore.removeId SnapshotStore.findRecord
  simp only
  rw [Option.map_eq_none'] at h ⊢
  exact find?_eq_none_of_filter _ _ _ h

theorem findRecord_appendRecord_self (s : SnapshotStore) (r : SnapshotRecord)
    (h : s.findRecord r.id = none) :
    (s.appendRecord r).findRecord r.id = some r := by
  unfold SnapshotStore.findRecord at h
  unfold SnapshotStore.appendRecord SnapshotStore.findRecord
  simp only
  rw [Option.map_eq_none'] at h
  rw [find?_append_fresh s.snapshots (r.id, r) r.id h]
  simp

theorem findRecord_insert_self (s : SnapshotStore) (r : SnapshotRecord)
    (h : s.findRecord r.id = none) :
    (s.insert r).findRecord r.id = some r ∨ s.insert r = s := by
  unfold SnapshotStore.insert
  by_cases hlt : s.snapshot_order.length < s.max_snapshots
  · rw [if_pos hlt]
    exact Or.inl (findRecord_appendRecord_self s r h)
  · rw [if_neg hlt]
    split
    · split
      · exact Or.inl (findRecord_appendRecord_self s r h)
      · exact Or.inl (findRecord_appendRecord_self _ r
          (findRecord_removeId_none s _ r.id h))
    · rename_i cmp hc
      by_cases hall : (s.snapshots.all fun p => lowerRank cmp r p.2) = true
      · rw [if_pos hall]
        exact Or.inr rfl
      · rw [if_neg hall]
        split
        · exact Or.inl (findRecord_appendRecord_self s r h)
        · exact Or.inl (findRecord_appendRecord_self _ r
            (findRecord_removeId_none s _ r.id h))

/-! ### Claim theorems: the error boundary, frame effects, round trips -/

/-- C9: for every id absent from the store, `get_snapshot` surfaces the
NotFound condition as a Python KeyError whose message is
"Snapshot with ID <id> not found". -/
theorem get_snapshot_missing_keyerror (m : SnapshotManager) (id : String)
    (h : m.storage.findRecord id = none) :
    m.get_snapshot id =
      .error { pyType := "KeyError",
               msg := "Snapshot with ID " ++ id ++ " not found" } := by
  unfold SnapshotManager.get_snapshot
  rw [h]
  rfl

/-- Witness for C9 at a concrete input: a fresh manager holds no snapshot
with id "missing". -/
theorem get_snapshot_missing_keyerror_witness :
    (mkManager 5 none true true).get_snapshot "missing" =
      .error { pyType := "KeyError",
               msg := "Snapshot with ID " ++ "missing" ++ " not found" } :=
  get_snapshot_missing_keyerror (mkManager 5 none true true) "missing" rfl

/-- C10: removing a stored id leaves the record of every other stored id
completely unchanged — the same record (tree, metadata and tags) is mapped
to it before and after the removal. -/
theorem remove_snapshot_frame (m : SnapshotManager) (x y : String)
    (hx : (m.storage.findRecord x).isSome = true) (hxy : x ≠ y) :
    ∃ m2, m.remove_snapshot x = .ok m2 ∧
      m2.storage.findRecord y = m.storage.findRecord y := by
  unfold SnapshotManager.remove_snapshot
  rw [if_pos hx]
  exact ⟨_, rfl, findRecord_removeId_ne m.storage x y hxy⟩

/-- Witness for C10 at a concrete input: removing "s1" from the two-snapshot
manager leaves "s2" mapped to the same record. -/
theorem remove_snapshot_frame_witness :
    ∃ m2, mgrP.remove_snapshot "s1" = .ok m2 ∧
      m2.storage.findRecord "s2" = mgrP.storage.findRecord "s2" :=
  remove_snapshot_frame mgrP "s1" "s2" rfl (by decide)

/-- C5: the save/get round trip — saving a tree under a fresh id and
retrieving it returns a tree value-equal to the one saved, whenever the
store accepted the record (the saved id is present after the call; under
the value semantics of the embedding, copy isolation preserves value
equality). -/
theorem save_get_roundtrip (m : SnapshotManager) (t : Tree)
    (sid : Option String) (md : Metadata) (tg : List String)
    (hfresh : m.storage.findRecord (resolveId m sid) = none) :
    ∃ m2, m.save_snapshot t sid md tg = .ok (m2, resolveId m sid) ∧
      (resolveId m sid ∈ m2.storage.ids →
        m2.get_snapshot (resolveId m sid) = .ok t) := by
  unfold SnapshotManager.save_snapshot
  simp only [hfresh, Option.isSome_none, Bool.false_eq_true, if_false]
  refine ⟨_, rfl, ?_⟩
  intro hmem
  have hcase := findRecord_insert_self m.storage
    { id := resolveId m sid, tree := t, metadata := md, tags := tg,
      insertion_seq := m.next_seq } hfresh
  unfold SnapshotManager.get_snapshot
  simp only
  cases hcase with
  | inl hfound => rw [hfound]
  | inr hsame =>
      exfalso
      rw [hsame] at hmem
      exact (findRecord_eq_none_iff m.storage (resolveId m sid)).mp hfresh hmem

/-- Witness for C5 at a concrete input: saving a nested tree into a fresh
manager and reading it back. -/
theorem save_get_roundtrip_witness :
    ∃ m2, (mkManager 5 none true true).save_snapshot (treeC 1 2) none [] [] =
        .ok (m2, resolveId (mkManager 5 none true true) none) ∧
      (resolveId (mkManager 5 none true true) none ∈ m2.storage.ids →
        m2.get_snapshot (resolveId (mkManager 5 none true true) none) =
          .ok (treeC 1 2)) :=
  save_get_roundtrip (mkManager 5 none true true) (treeC 1 2) none [] [] rfl

/-! ### Preservation of the store invariant by every public operation -/

theorem nodup_erase_eq_filter_decide (l : List String) (a : String)
    (d : l.Nodup) : l.erase a = l.filter (fun x => decide (x ≠ a)) := by
  rw [d.erase_eq_filter a]
  apply List.filter_congr
  intro x _
  by_cases h : x = a
  · simp [h]
  · simp [h]

theorem map_fst_modify (l : List (String × SnapshotRecord)) (id : String)
    (g : SnapshotRecord → SnapshotRecord) :
    (l.map (fun p => if p.1 = id then (p.1, g p.2) else p)).map (fun e => e.1) =
      l.map (fun e => e.1) := by
  induction l with
  | nil => rfl
  | cons e l ih =>
      have hfst : (if e.1 = id then (e.1, g e.2) else e).1 = e.1 := by
        by_cases h : e.1 = id
        · rw [if_pos h]
        · rw [if_neg h]
      simp only [List.map_cons, hfst, ih]

theorem map_fst_of_fst_eq
    (F : (String × SnapshotRecord) → (String × SnapshotRecord))
    (hF : ∀ p, (F p).1 = p.1) (l : List (String × SnapshotRecord)) :
    (l.map F).map (fun e => e.1) = l.map (fun e => e.1) := by
  induction l with
  | nil => rfl
  | cons e l ih => simp only [List.map_cons, hF, ih]

theorem map_fst_filter_ne (l : List (String × SnapshotRecord)) (id : String) :
    (l.filter (fun p => decide (p.1 ≠ id))).map (fun e => e.1) =
      (l.map (fun e => e.1)).filter (fun x => decide (x ≠ id)) := by
  induction l with
  | nil => rfl
  | cons e l ih =>
      simp only [List.filter_cons, List.map_cons]
      by_cases h : e.1 = id
      · rw [if_neg (by simp [h]), if_neg (by simp [h])]
        exact ih
      · rw [if_pos (by simp [h]), if_pos (by simp [h])]
        simp only [List.map_cons, ih]

theorem foldl_pick_mem (g : (String × SnapshotRecord) →
    (String × SnapshotRecord) → Prop) [DecidableRel g] :
    ∀ (es : List (String × SnapshotRecord)) (a : String × SnapshotRecord),
      es.foldl (fun m x => if g x m then x else m) a = a ∨
        es.foldl (fun m x => if g x m then x else m) a ∈ es := by
  intro es
  induction es with
  | nil =>
      intro a
      exact Or.inl rfl
  | cons x es ih =>
      intro a
      simp only [List.foldl_cons]
      by_cases h : g x a
      · rw [if_pos h]
        cases ih x with
        | inl h2 => exact Or.inr (by rw [h2]; exact List.mem_cons_self x es)
        | inr h2 => exact Or.inr (List.mem_cons_of_mem x h2)
      · rw [if_neg h]
        cases ih a with
        | inl h2 => exact Or.inl h2
        | inr h2 => exact Or.inr (List.mem_cons_of_mem x h2)

theorem oldestEntry_mem (l : List (String × SnapshotRecord))
    (e : String × SnapshotRecord) (h : oldestEntry l = some e) : e ∈ l := by
  cases l with
  | nil => cases h
  | cons a es =>
      have he : es.foldl
          (fun m x => if x.2.insertion_seq < m.2.insertion_seq then x else m)
          a = e := Option.some.inj h
      have hfold := foldl_pick_mem
        (fun x m => x.2.insertion_seq < m.2.insertion_seq) es a
      rw [he] at hfold
      cases hfold with
      | inl h2 => exact (by rw [h2]; exact List.mem_cons_self a es)
      | inr h2 => exact List.mem_cons_of_mem a h2

theorem lowestEntry_mem (cmp : Cmp) (l : List (String × SnapshotRecord))
    (e : String × SnapshotRecord) (h : lowestEntry cmp l = some e) : e ∈ l := by
  cases l with
  | nil => cases h
  | cons a es =>
      have he : es.foldl
          (fun m x => if lowerRank cmp x.2 m.2 then x else m) a = e :=
        Option.some.inj h
      have hfold := foldl_pick_mem
        (fun x m => lowerRank cmp x.2 m.2 = true) es a
      rw [he] at hfold
      cases hfold with
      | inl h2 => exact (by rw [h2]; exact List.mem_cons_self a es)
      | inr h2 => exact List.mem_cons_of_mem a h2

theorem Wf_appendRecord (s : SnapshotStore) (r : SnapshotRecord)
    (hwf : Wf s) (hfresh : r.id ∉ s.ids)
    (hlt : s.snapshot_order.length < s.max_snapshots) :
    Wf (s.appendRecord r) := by
  obtain ⟨ha, hn, hl⟩ := hwf
  have hno : r.id ∉ s.snapshot_order := by
    rw [ha]
    exact hfresh
  refine ⟨?_, ?_, ?_⟩
  · show s.snapshot_order ++ [r.id] =
      (s.snapshots ++ [(r.id, r)]).map (fun e => e.1)
    rw [List.map_append, ← ha]
    rfl
  · show (s.snapshot_order ++ [r.id]).Nodup
    simp [List.nodup_append, hn, hno]
  · show (s.snapshot_order ++ [r.id]).length ≤ s.max_snapshots
    rw [List.length_append]
    simp only [List.length_singleton]
    omega

theorem Wf_removeId (s : SnapshotStore) (id : String) (hwf : Wf s) :
    Wf (s.removeId id) := by
  obtain ⟨ha, hn, hl⟩ := hwf
  refine ⟨?_, ?_, ?_⟩
  · show s.snapshot_order.erase id =
      (s.snapshots.filter (fun p => decide (p.1 ≠ id))).map (fun e => e.1)
    rw [map_fst_filter_ne, ← ha, nodup_erase_eq_filter_decide s.snapshot_order id hn]
  · exact hn.erase id
  · exact le_trans (List.erase_sublist id s.snapshot_order).length_le hl

theorem insert_max_eq (s : SnapshotStore) (r : SnapshotRecord) :
    (s.insert r).max_snapshots = s.max_snapshots := by
  unfold SnapshotStore.insert
  by_cases hlt : s.snapshot_order.length < s.max_snapshots
  · rw [if_pos hlt]
    rfl
  · rw [if_neg hlt]
    split
    · split <;> rfl
    · split
      · rfl
      · split <;> rfl

theorem Wf_evict_append (s : SnapshotStore) (e : String × SnapshotRecord)
    (r : SnapshotRecord) (hwf : Wf s) (hfresh : r.id ∉ s.ids)
    (_hmax : 1 ≤ s.max_snapshots) (hmem : e ∈ s.snapshots) :
    Wf ((s.removeId e.1).appendRecord r) := by
  have hmemo : e.1 ∈ s.snapshot_order := by
    rw [hwf.1]
    exact List.mem_map.mpr ⟨e, hmem, rfl⟩
  apply Wf_appendRecord _ r (Wf_removeId s e.1 hwf)
  · intro hcontra
    apply hfresh
    have h2 : r.id ∈ (s.snapshots.filter
        (fun p => decide (p.1 ≠ e.1))).map (fun x => x.1) := hcontra
    rw [map_fst_filter_ne] at h2
    exact List.mem_of_mem_filter h2
  · show (s.snapshot_order.erase e.1).length < s.max_snapshots
    rw [List.length_erase_of_mem hmemo]
    have hpos : 0 < s.snapshot_order.length := List.length_pos_of_mem hmemo
    have hl := hwf.2.2
    omega

theorem Wf_insert (s : SnapshotStore) (r : SnapshotRecord) (hwf : Wf s)
    (hmax : 1 ≤ s.max_snapshots) (hfresh : r.id ∉ s.ids) :
    Wf (s.insert r) := by
  unfold SnapshotStore.insert
  by_cases hlt : s.snapshot_order.length < s.max_snapshots
  · rw [if_pos hlt]
    exact Wf_appendRecord s r hwf hfresh hlt
  · rw [if_neg hlt]
    have hfull : s.snapshot_order.length = s.max_snapshots :=
      le_antisymm hwf.2.2 (not_lt.mp hlt)
    split
    · split
      · rename_i ho
        exfalso
        have hnil : s.snapshots = [] := by
          cases hsn : s.snapshots with
          | nil => rfl
          | cons a es =>
              rw [hsn] at ho
              simp [oldestEntry] at ho
        have hord : s.snapshot_order = [] := by
          rw [hwf.1, hnil]
          rfl
        rw [hord] at hfull
        simp at hfull
        omega
      · rename_i e ho
        exact Wf_evict_append s e r hwf hfresh hmax (oldestEntry_mem _ e ho)
    · rename_i cmp hc
      split
      · exact hwf
      · split
        · rename_i hlo
          exfalso
          have hnil : s.snapshots = [] := by
            cases hsn : s.snapshots with
            | nil => rfl
            | cons a es =>
                rw [hsn] at hlo
                simp [lowestEntry] at hlo
          have hord : s.snapshot_order = [] := by
            rw [hwf.1, hnil]
            rfl
          rw [hord] at hfull
          simp at hfull
          omega
        · rename_i e hlo
          exact Wf_evict_append s e r hwf hfresh hmax (lowestEntry_mem cmp _ e hlo)

theorem Wf_modifyRecord (s : SnapshotStore) (id : String)
    (g : SnapshotRecord → SnapshotRecord) (hwf : Wf s) :
    Wf (s.modifyRecord id g) := by
  obtain ⟨ha, hn, hl⟩ := hwf
  refine ⟨?_, hn, hl⟩
  show s.snapshot_order =
    (s.snapshots.map (fun p => if p.1 = id then (p.1, g p.2) else p)).map
      (fun e => e.1)
  rw [map_fst_modify]
  exact ha

theorem Wf_modify_foldl (g : SnapshotRecord → SnapshotRecord) :
    ∀ (ids : List String) (s : SnapshotStore), Wf s →
      Wf (ids.foldl (fun st id => st.modifyRecord id g) s) ∧
      (ids.foldl (fun st id => st.modifyRecord id g) s).max_snapshots =
        s.max_snapshots := by
  intro ids
  induction ids with
  | nil =>
      intro s hs
      exact ⟨hs, rfl⟩
  | cons i ids ih =>
      intro s hs
      simp only [List.foldl_cons]
      obtain ⟨h1, h2⟩ := ih (s.modifyRecord i g) (Wf_modifyRecord s i g hs)
      exact ⟨h1, h2.trans rfl⟩

theorem save_snapshot_ok_storage (m : SnapshotManager) (t : Tree)
    (sid : Option String) (md : Metadata) (tg : List String)
    (p : SnapshotManager × String)
    (hres : m.save_snapshot t sid md tg = .ok p) :
    p.1.storage = m.storage.insert
      (SnapshotRecord.mk (resolveId m sid) t md tg m.next_seq) ∧
    (m.storage.findRecord (resolveId m sid)).isSome = false := by
  unfold SnapshotManager.save_snapshot at hres
  by_cases hdup : (m.storage.findRecord (resolveId m sid)).isSome = true
  · simp only [hdup, if_true] at hres
    exact Except.noConfusion hres
  · have hd2 : (m.storage.findRecord (resolveId m sid)).isSome = false :=
      Bool.eq_false_iff.mpr hdup
    simp only [hd2, Bool.false_eq_true, if_false] at hres
    have h2 := Except.ok.inj hres
    exact ⟨by rw [← h2], hd2⟩

theorem WfM_applyOp (m : SnapshotManager) (op : Op)
    (hwf : Wf m.storage) (hmax : 1 ≤ m.storage.max_snapshots) :
    Wf (applyOp m op).storage ∧
      (applyOp m op).storage.max_snapshots = m.storage.max_snapshots := by
  cases op with
  | save t sid md tg =>
      cases hres : m.save_snapshot t sid md tg with
      | error e =>
          simp only [applyOp, hres]
          exact ⟨hwf, by trivial⟩
      | ok p =>
          simp only [applyOp, hres]
          obtain ⟨hstor, hfr⟩ := save_snapshot_ok_storage m t sid md tg p hres
          rw [hstor]
          have hnone : m.storage.findRecord (resolveId m sid) = none := by
            cases hfind : m.storage.findRecord (resolveId m sid) with
            | none => rfl
            | some r2 =>
                rw [hfind] at hfr
                simp at hfr
          have hfresh : (SnapshotRecord.mk (resolveId m sid) t md tg
              m.next_seq).id ∉ m.storage.ids :=
            (findRecord_eq_none_iff _ _).mp hnone
          exact ⟨Wf_insert _ _ hwf hmax hfresh, insert_max_eq _ _⟩
  | remove id =>
      cases hres : m.remove_snapshot id with
      | error e =>
          simp only [applyOp, hres]
          exact ⟨hwf, by trivial⟩
      | ok m2 =>
          simp only [applyOp, hres]
          unfold SnapshotManager.remove_snapshot at hres
          by_cases h : (m.storage.findRecord id).isSome = true
          · rw [if_pos h] at hres
            have h2 := Except.ok.inj hres
            rw [← h2]
            exact ⟨Wf_removeId _ _ hwf, rfl⟩
          · rw [if_neg h] at hres
            cases hres
  | updMeta id upd =>
      cases hres : m.update_metadata id upd with
      | error e =>
          simp only [applyOp, hres]
          exact ⟨hwf, by trivial⟩
      | ok m2 =>
          simp only [applyOp, hres]
          unfold SnapshotManager.update_metadata at hres
          by_cases h : (m.storage.findRecord id).isSome = true
          · rw [if_pos h] at hres
            have h2 := Except.ok.inj hres
            rw [← h2]
            exact ⟨Wf_modifyRecord _ _ _ hwf, rfl⟩
          · rw [if_neg h] at hres
            cases hres
  | addTg id tg =>
      cases hres : m.add_tags id tg with
      | error e =>
          simp only [applyOp, hres]
          exact ⟨hwf, by trivial⟩
      | ok m2 =>
          simp only [applyOp, hres]
          unfold SnapshotManager.add_tags at hres
          by_cases h : (m.storage.findRecord id).isSome = true
          · rw [if_pos h] at hres
            have h2 := Except.ok.inj hres
            rw [← h2]
            exact ⟨Wf_modifyRecord _ _ _ hwf, rfl⟩
          · rw [if_neg h] at hres
            cases hres
  | removeTg id tg =>
      cases hres : m.remove_tags id tg with
      | error e =>
          simp only [applyOp, hres]
          exact ⟨hwf, by trivial⟩
      | ok m2 =>
          simp only [applyOp, hres]
          unfold SnapshotManager.remove_tags at hres
          by_cases h : (m.storage.findRecord id).isSome = true
          · rw [if_pos h] at hres
            have h2 := Except.ok.inj hres
            rw [← h2]
            exact ⟨Wf_modifyRecord _ _ _ hwf, rfl⟩
          · rw [if_neg h] at hres
            cases hres
  | updLeaves ids f =>
      cases hres : m.update_leaf_nodes ids f with
      | error e =>
          simp only [applyOp, hres]
          exact ⟨hwf, by trivial⟩
      | ok m2 =>
          simp only [applyOp, hres]
          unfold SnapshotManager.update_leaf_nodes at hres
          cases hf : ids.find? (fun id => (m.storage.findRecord id).isNone) with
          | some missing =>
              simp only [hf] at hres
              exact Except.noConfusion hres
          | none =>
              simp only [hf] at hres
              have h2 := Except.ok.inj hres
              rw [← h2]
              obtain ⟨h3, h4⟩ := Wf_modify_foldl
                (fun r => { r with tree := r.tree.mapLeaves f }) ids
                m.storage hwf
              exact ⟨h3, h4⟩
  | updAllLeaves f =>
      obtain ⟨ha, hn, hl⟩ := hwf
      simp only [applyOp, SnapshotManager.update_all_leaf_nodes]
      refine ⟨⟨?_, hn, hl⟩, by trivial⟩
      have hmap := map_fst_of_fst_eq
        (fun p => (p.1, { p.2 with tree := p.2.tree.mapLeaves f }))
        (fun p => rfl) m.storage.snapshots
      rw [hmap]
      exact ha

theorem applyOps_cons (m : SnapshotManager) (op : Op) (ops : List Op) :
    applyOps m (op :: ops) = applyOps (applyOp m op) ops := rfl

theorem WfM_applyOps (ops : List Op) : ∀ (m : SnapshotManager),
    Wf m.storage → 1 ≤ m.storage.max_snapshots →
    Wf (applyOps m ops).storage ∧
      (applyOps m ops).storage.max_snapshots = m.storage.max_snapshots := by
  induction ops with
  | nil =>
      intro m hwf _
      exact ⟨hwf, rfl⟩
  | cons op ops ih =>
      intro m hwf hmax
      rw [applyOps_cons]
      obtain ⟨h1, h2⟩ := WfM_applyOp m op hwf hmax
      obtain ⟨h3, h4⟩ := ih (applyOp m op) h1 (by rw [h2]; exact hmax)
      exact ⟨h3, by rw [h4, h2]⟩

/-- C1: for every sequence of public operations on a manager configured with
capacity at least one, the number of stored ids stays at most the capacity
after every mutating call, and the ordering list and the id-to-record
mapping always hold exactly the same ids. -/
theorem capacity_and_consistency_invariant (max : Nat) (cmp : Option Cmp)
    (dcs dcr : Bool) (ops : List Op) (hmax : 1 ≤ max) :
    (applyOps (mkManager max cmp dcs dcr) ops).storage.snapshot_order.length
      ≤ max ∧
    ∀ id, id ∈ (applyOps (mkManager max cmp dcs dcr) ops).storage.snapshot_order
      ↔ id ∈ (applyOps (mkManager max cmp dcs dcr) ops).storage.ids := by
  have hinit : Wf (mkManager max cmp dcs dcr).storage :=
    ⟨rfl, List.nodup_nil, Nat.zero_le max⟩
  obtain ⟨⟨ha, hn, hl⟩, hm⟩ :=
    WfM_applyOps ops (mkManager max cmp dcs dcr) hinit hmax
  constructor
  · rw [hm] at hl
    exact hl
  · intro id
    rw [ha]
    exact Iff.rfl

/-- Witness for C1 at a concrete input: capacity 2 with four operations,
including saves beyond capacity and a removal. -/
theorem capacity_and_consistency_invariant_witness :
    (applyOps (mkManager 2 none true true)
      [Op.save (.leaf 1) none [] [], Op.save (.leaf 2) (some "a") [] [],
       Op.save (.leaf 3) none [] [], Op.remove "a"]).storage.snapshot_order.length
      ≤ 2 ∧
    ∀ id, id ∈ (applyOps (mkManager 2 none true true)
      [Op.save (.leaf 1) none [] [], Op.save (.leaf 2) (some "a") [] [],
       Op.save (.leaf 3) none [] [], Op.remove "a"]).storage.snapshot_order
      ↔ id ∈ (applyOps (mkManager 2 none true true)
      [Op.save (.leaf 1) none [] [], Op.save (.leaf 2) (some "a") [] [],
       Op.save (.leaf 3) none [] [], Op.remove "a"]).storage.ids :=
  capacity_and_consistency_invariant 2 none true true
    [Op.save (.leaf 1) none [] [], Op.save (.leaf 2) (some "a") [] [],
     Op.save (.leaf 3) none [] [], Op.remove "a"] (by decide)

/-! ### Ranked rejection at full capacity -/

/-- C2: with a comparator configured and the store at full capacity, saving
a record whose fitness is the minimum among all candidates leaves the store
completely unchanged, raises no exception, still returns the id, and that
id is not retrievable afterwards. -/
theorem reject_lowest_leaves_store_unchanged (m : SnapshotManager) (cmp : Cmp)
    (t : Tree) (id : String) (md : Metadata) (tg : List String)
    (hcmp : m.storage.cmp_function = some cmp)
    (hfull : ¬ m.storage.snapshot_order.length < m.storage.max_snapshots)
    (hfresh : m.storage.findRecord id = none)
    (hmin : ∀ e ∈ m.storage.snapshots,
      lowerRank cmp (SnapshotRecord.mk id t md tg m.next_seq) e.2 = true) :
    ∃ m2, m.save_snapshot t (some id) md tg = .ok (m2, id) ∧
      m2.storage = m.storage ∧
      m2.get_snapshot id = .error (notFoundErr id) := by
  have hins : m.storage.insert (SnapshotRecord.mk id t md tg m.next_seq) =
      m.storage := by
    unfold SnapshotStore.insert
    rw [if_neg hfull]
    simp only [hcmp]
    rw [if_pos (List.all_eq_true.mpr hmin)]
  unfold SnapshotManager.save_snapshot
  simp only [resolveId, hfresh, Option.isSome_none, Bool.false_eq_true,
    if_false]
  refine ⟨_, rfl, ?_, ?_⟩
  · simp only [hins]
  · unfold SnapshotManager.get_snapshot
    simp only [hins, hfresh]

/-- Witness for C2 at scenario B: the accuracy-0.4 candidate is rejected by
the full accuracy-ranked store with accuracies 0.5, 0.7, 0.6. -/
theorem reject_lowest_leaves_store_unchanged_witness :
    ∃ m2, scenA.save_snapshot (.leaf 0) (some "snap5")
        [("accuracy", .num (mkRat 2 5))] [] = .ok (m2, "snap5") ∧
      m2.storage = scenA.storage ∧
      m2.get_snapshot "snap5" = .error (notFoundErr "snap5") :=
  reject_lowest_leaves_store_unchanged scenA cmpAcc (.leaf 0) "snap5"
    [("accuracy", .num (mkRat 2 5))] [] rfl (by decide) rfl (by decide)

/-! ### Ranked eviction: the lower-rank order induced by a fitness -/

theorem lowerRank_cmpOf (f : SnapshotRecord → Rat) (a b : SnapshotRecord) :
    lowerRank (cmpOf f) a b = true ↔
      (f a < f b ∨ (f a = f b ∧ a.insertion_seq < b.insertion_seq)) := by
  unfold lowerRank cmpOf
  by_cases h1 : f a < f b
  · rw [if_pos h1]
    simp [h1]
  · rw [if_neg h1]
    by_cases h2 : f b < f a
    · rw [if_pos h2]
      simp [h1, (ne_of_lt h2).symm]
    · rw [if_neg h2]
      have heq : f a = f b := le_antisymm (not_lt.mp h2) (not_lt.mp h1)
      simp [h1, heq]

theorem not_lt_of_lower_false (f : SnapshotRecord → Rat) (a b : SnapshotRecord)
    (h : lowerRank (cmpOf f) a b = false) : f b ≤ f a := by
  by_contra hc
  push_neg at hc
  have h2 := (lowerRank_cmpOf f a b).mpr (Or.inl hc)
  rw [h] at h2
  simp at h2

theorem seq_le_of_lower_false (f : SnapshotRecord → Rat) (a b : SnapshotRecord)
    (h : lowerRank (cmpOf f) a b = false) (heq : f a = f b) :
    b.insertion_seq ≤ a.insertion_seq := by
  by_contra hc
  push_neg at hc
  have h2 := (lowerRank_cmpOf f a b).mpr (Or.inr ⟨heq, hc⟩)
  rw [h] at h2
  simp at h2

theorem lower_irrefl (f : SnapshotRecord → Rat) (a : SnapshotRecord) :
    lowerRank (cmpOf f) a a = false := by
  cases h : lowerRank (cmpOf f) a a with
  | false => rfl
  | true =>
      rcases (lowerRank_cmpOf f a a).mp h with h1 | ⟨h1, h2⟩
      · exact absurd h1 (lt_irrefl _)
      · exact absurd h2 (Nat.lt_irrefl _)

theorem lower_asym (f : SnapshotRecord → Rat) (a b : SnapshotRecord)
    (h : lowerRank (cmpOf f) a b = true) : lowerRank (cmpOf f) b a = false := by
  cases h2 : lowerRank (cmpOf f) b a with
  | false => rfl
  | true =>
      exfalso
      rcases (lowerRank_cmpOf f a b).mp h with h1 | ⟨h1, hs1⟩ <;>
        rcases (lowerRank_cmpOf f b a).mp h2 with h3 | ⟨h3, hs3⟩
      · exact lt_asymm h1 h3
      · rw [h3] at h1
        exact lt_irrefl _ h1
      · rw [h1] at h3
        exact lt_irrefl _ h3
      · exact Nat.lt_asymm hs1 hs3

theorem lower_trans (f : SnapshotRecord → Rat) (a b c : SnapshotRecord)
    (h1 : lowerRank (cmpOf f) a b = true) (h2 : lowerRank (cmpOf f) b c = true) :
    lowerRank (cmpOf f) a c = true := by
  apply (lowerRank_cmpOf f a c).mpr
  rcases (lowerRank_cmpOf f a b).mp h1 with ha | ⟨ha, hsa⟩ <;>
    rcases (lowerRank_cmpOf f b c).mp h2 with hb | ⟨hb, hsb⟩
  · exact Or.inl (lt_trans ha hb)
  · exact Or.inl (hb ▸ ha)
  · exact Or.inl (ha ▸ hb)
  · exact Or.inr ⟨ha.trans hb, Nat.lt_trans hsa hsb⟩

theorem lowerFalse_trans (f : SnapshotRecord → Rat) (a b c : SnapshotRecord)
    (h1 : lowerRank (cmpOf f) a b = false)
    (h2 : lowerRank (cmpOf f) b c = false) :
    lowerRank (cmpOf f) a c = false := by
  cases h3 : lowerRank (cmpOf f) a c with
  | false => rfl
  | true =>
      exfalso
      have hba : f b ≤ f a := not_lt_of_lower_false f a b h1
      have hcb : f c ≤ f b := not_lt_of_lower_false f b c h2
      rcases (lowerRank_cmpOf f a c).mp h3 with hac | ⟨hac, hsac⟩
      · exact absurd hac (not_lt.mpr (hcb.trans hba))
      · have hab : f a = f b := le_antisymm (hac.le.trans hcb) hba
        have hbc : f b = f c := le_antisymm (hab.symm.le.trans hac.le) hcb
        have hs1 := seq_le_of_lower_false f a b h1 hab
        have hs2 := seq_le_of_lower_false f b c h2 hbc
        omega

theorem foldl_lowest_spec (f : SnapshotRecord → Rat) :
    ∀ (es : List (String × SnapshotRecord)) (a : String × SnapshotRecord),
      (es.foldl (fun m x => if lowerRank (cmpOf f) x.2 m.2 then x else m) a = a ∨
        es.foldl (fun m x => if lowerRank (cmpOf f) x.2 m.2 then x else m) a ∈ es) ∧
      lowerRank (cmpOf f) a.2
        (es.foldl (fun m x => if lowerRank (cmpOf f) x.2 m.2 then x else m) a).2 =
        false ∧
      ∀ y ∈ es, lowerRank (cmpOf f) y.2
        (es.foldl (fun m x => if lowerRank (cmpOf f) x.2 m.2 then x else m) a).2 =
        false := by
  intro es
  induction es with
  | nil =>
      intro a
      exact ⟨Or.inl rfl, lower_irrefl f a.2, by simp⟩
  | cons x es ih =>
      intro a
      simp only [List.foldl_cons]
      by_cases hxa : lowerRank (cmpOf f) x.2 a.2 = true
      · rw [if_pos hxa]
        obtain ⟨hmem, hxr, hall⟩ := ih x
        refine ⟨?_, ?_, ?_⟩
        · cases hmem with
          | inl h => exact Or.inr (by rw [h]; exact List.mem_cons_self x es)
          | inr h => exact Or.inr (List.mem_cons_of_mem x h)
        · cases har : lowerRank (cmpOf f) a.2
            (es.foldl (fun m x => if lowerRank (cmpOf f) x.2 m.2 then x else m) x).2 with
          | false => rfl
          | true =>
              exfalso
              have := lower_trans f x.2 a.2 _ hxa har
              rw [hxr] at this
              simp at this
        · intro y hy
          cases List.mem_cons.mp hy with
          | inl h => exact h ▸ hxr
          | inr h => exact hall y h
      · have hxa2 : lowerRank (cmpOf f) x.2 a.2 = false :=
          Bool.eq_false_iff.mpr hxa
        rw [if_neg hxa]
        obtain ⟨hmem, har, hall⟩ := ih a
        refine ⟨?_, har, ?_⟩
        · cases hmem with
          | inl h => exact Or.inl h
          | inr h => exact Or.inr (List.mem_cons_of_mem x h)
        · intro y hy
          cases List.mem_cons.mp hy with
          | inl h => exact h ▸ lowerFalse_trans f x.2 a.2 _ hxa2 har
          | inr h => exact hall y h

theorem lowestEntry_cons (cmp : Cmp) (a : String × SnapshotRecord)
    (es : List (String × SnapshotRecord)) :
    lowestEntry cmp (a :: es) =
      some (es.foldl (fun m x => if lowerRank cmp x.2 m.2 then x else m) a) :=
  rfl

theorem lowestEntry_spec (f : SnapshotRecord → Rat)
    (l : List (String × SnapshotRecord)) (e : String × SnapshotRecord)
    (h : lowestEntry (cmpOf f) l = some e) :
    e ∈ l ∧ ∀ p ∈ l, lowerRank (cmpOf f) p.2 e.2 = false := by
  cases l with
  | nil => cases h
  | cons a es =>
      have hfold := foldl_lowest_spec f es a
      have he : es.foldl (fun m x => if lowerRank (cmpOf f) x.2 m.2 then x else m) a = e := by
        have h2 : lowestEntry (cmpOf f) (a :: es) =
            some (es.foldl (fun m x => if lowerRank (cmpOf f) x.2 m.2 then x else m) a) := rfl
        rw [h2] at h
        exact Option.some.inj h
      rw [he] at hfold
      obtain ⟨hmem, har, hall⟩ := hfold
      refine ⟨?_, ?_⟩
      · cases hmem with
        | inl h2 => exact (by rw [h2]; exact List.mem_cons_self a es)
        | inr h2 => exact List.mem_cons_of_mem a h2
      · intro p hp
        cases List.mem_cons.mp hp with
        | inl h2 => exact h2 ▸ har
        | inr h2 => exact hall p h2

/-- C4: with a comparator over a fitness configured and the store at full
capacity, a non-minimum candidate evicts exactly the single lowest-fitness
existing record (a record no other stored record is strictly below) and is
appended; `get_ranked_snapshots` is the stored records reordered descending
by fitness; in scenario A (capacity 3, accuracy fitness, accuracies 0.5,
0.7, 0.6, then 0.8) the final ranked list is [snap4, snap2, snap3] and the
0.5 record is evicted. -/
theorem ranked_eviction_and_order (m : SnapshotManager)
    (f : SnapshotRecord → Rat) (t : Tree) (id : String) (md : Metadata)
    (tg : List String)
    (hcmp : m.storage.cmp_function = some (cmpOf f))
    (hfull : ¬ m.storage.snapshot_order.length < m.storage.max_snapshots)
    (hfresh : m.storage.findRecord id = none)
    (hnotmin : (m.storage.snapshots.all fun p =>
      lowerRank (cmpOf f) (SnapshotRecord.mk id t md tg m.next_seq) p.2) =
      false) :
    (∃ m2 e, m.save_snapshot t (some id) md tg = .ok (m2, id) ∧
      lowestEntry (cmpOf f) m.storage.snapshots = some e ∧
      (∀ p ∈ m.storage.snapshots, lowerRank (cmpOf f) p.2 e.2 = false) ∧
      m2.storage.snapshots =
        (m.storage.snapshots.filter fun p => decide (p.1 ≠ e.1)) ++
          [(id, SnapshotRecord.mk id t md tg m.next_seq)] ∧
      m2.storage.snapshot_order =
        m.storage.snapshot_order.erase e.1 ++ [id]) ∧
    (∃ rs, m.get_ranked_snapshots = List.map (fun r => r.id) rs ∧
      List.Perm rs m.storage.records ∧
      List.Sorted (fun a b => f b ≤ f a) rs) ∧
    (scenA4.get_ranked_snapshots = ["snap4", "snap2", "snap3"] ∧
      "snap1" ∉ scenA4.storage.ids) := by
  refine ⟨?_, ?_, by decide, by decide⟩
  · -- eviction of exactly the lowest-fitness record
    have hne : m.storage.snapshots ≠ [] := by
      intro h0
      rw [h0] at hnotmin
      simp [List.all_nil] at hnotmin
    obtain ⟨e0, he0⟩ : ∃ e0, lowestEntry (cmpOf f) m.storage.snapshots = some e0 := by
      cases hl : m.storage.snapshots with
      | nil => exact absurd hl hne
      | cons a es => exact ⟨_, lowestEntry_cons (cmpOf f) a es⟩
    obtain ⟨hmem, hmin⟩ := lowestEntry_spec f m.storage.snapshots e0 he0
    have hins : m.storage.insert (SnapshotRecord.mk id t md tg m.next_seq) =
        (m.storage.removeId e0.1).appendRecord
          (SnapshotRecord.mk id t md tg m.next_seq) := by
      unfold SnapshotStore.insert
      rw [if_neg hfull]
      simp only [hcmp]
      rw [if_neg (by rw [hnotmin]; simp), he0]
    unfold SnapshotManager.save_snapshot
    simp only [resolveId, hfresh, Option.isSome_none, Bool.false_eq_true,
      if_false]
    refine ⟨_, e0, rfl, he0, hmin, ?_, ?_⟩
    · simp only [hins]
      rfl
    · simp only [hins]
      rfl
  · -- the ranked list is the stored records sorted descending by fitness
    haveI htot : IsTotal SnapshotRecord (rankGE (cmpOf f)) := by
      constructor
      intro a b
      by_cases h : lowerRank (cmpOf f) a b = true
      · exact Or.inr (lower_asym f a b h)
      · exact Or.inl (Bool.eq_false_iff.mpr h)
    haveI htrans : IsTrans SnapshotRecord (rankGE (cmpOf f)) := by
      constructor
      intro a b c hab hbc
      exact lowerFalse_trans f a b c hab hbc
    refine ⟨List.insertionSort (rankGE (cmpOf f)) m.storage.records, ?_, ?_, ?_⟩
    · unfold SnapshotManager.get_ranked_snapshots SnapshotStore.ranked_ids
      simp only [hcmp]
    · exact List.perm_insertionSort _ _
    · have hs := List.sorted_insertionSort (rankGE (cmpOf f)) m.storage.records
      exact List.Pairwise.imp
        (fun hab => not_lt_of_lower_false f _ _ hab) hs

/-- Witness for C4 at scenario A: inserting the accuracy-0.8 snapshot into
the full store with accuracies 0.5, 0.7, 0.6. -/
theorem ranked_eviction_and_order_witness :
    (∃ m2 e, scenA.save_snapshot (.leaf 0) (some "snap4")
        [("accuracy", .num (mkRat 4 5))] [] = .ok (m2, "snap4") ∧
      lowestEntry (cmpOf accOf) scenA.storage.snapshots = some e ∧
      (∀ p ∈ scenA.storage.snapshots,
        lowerRank (cmpOf accOf) p.2 e.2 = false) ∧
      m2.storage.snapshots =
        (scenA.storage.snapshots.filter fun p => decide (p.1 ≠ e.1)) ++
          [("snap4", SnapshotRecord.mk "snap4" (.leaf 0)
            [("accuracy", .num (mkRat 4 5))] [] scenA.next_seq)] ∧
      m2.storage.snapshot_order =
        scenA.storage.snapshot_order.erase e.1 ++ ["snap4"]) ∧
    (∃ rs, scenA.get_ranked_snapshots = List.map (fun r => r.id) rs ∧
      List.Perm rs scenA.storage.records ∧
      List.Sorted (fun a b => accOf b ≤ accOf a) rs) ∧
    (scenA4.get_ranked_snapshots = ["snap4", "snap2", "snap3"] ∧
      "snap1" ∉ scenA4.storage.ids) :=
  ranked_eviction_and_order scenA accOf (.leaf 0) "snap4"
    [("accuracy", .num (mkRat 4 5))] [] rfl (by decide) rfl (by decide)

/-! ### Query laws -/

theorem idsWhere_subset (s : SnapshotStore) (p : SnapshotRecord → Bool) :
    idsWhere s p ⊆ allIds s := by
  intro a ha
  simp only [idsWhere, allIds, List.mem_toFinset, List.mem_map] at ha ⊢
  obtain ⟨e, he, heq⟩ := ha
  exact ⟨e, List.mem_of_mem_filter he, heq⟩

mutual

theorem eval_subset : ∀ (q : Query) (s : SnapshotStore),
    evaluate q s ⊆ allIds s
  | .ByMetadataQuery k v, s => by
      simp only [evaluate]
      exact idsWhere_subset s _
  | .ByTagQuery t, s => by
      simp only [evaluate]
      exact idsWhere_subset s _
  | .ByContentQuery p, s => by
      simp only [evaluate]
      exact idsWhere_subset s _
  | .ByLeafValueQuery p, s => by
      simp only [evaluate]
      exact idsWhere_subset s _
  | .AndQuery cs, s => by
      simp only [evaluate]
      exact evalAnd_subset cs s
  | .OrQuery cs, s => by
      simp only [evaluate]
      exact evalOr_subset cs s
  | .NotQuery q, s => by
      simp only [evaluate]
      exact Finset.sdiff_subset

theorem evalAnd_subset : ∀ (cs : List Query) (s : SnapshotStore),
    evalAnd cs s ⊆ allIds s
  | [], s => by
      simp only [evalAnd]
      exact Finset.Subset.refl _
  | c :: cs, s => by
      simp only [evalAnd]
      exact Finset.inter_subset_left.trans (eval_subset c s)

theorem evalOr_subset : ∀ (cs : List Query) (s : SnapshotStore),
    evalOr cs s ⊆ allIds s
  | [], s => by
      simp only [evalOr]
      exact Finset.empty_subset _
  | c :: cs, s => by
      simp only [evalOr]
      exact Finset.union_subset (eval_subset c s) (evalOr_subset cs s)

end

/-- C7: the query laws — double negation is the identity, the empty
conjunction evaluates to the full id set, the empty disjunction to the
empty set, and negation is complement relative to the full id set at
evaluation time. -/
theorem query_laws (q : Query) (s : SnapshotStore) :
    evaluate (.NotQuery (.NotQuery q)) s = evaluate q s ∧
    evaluate (.AndQuery []) s = allIds s ∧
    evaluate (.OrQuery []) s = (∅ : Finset String) ∧
    evaluate (.NotQuery q) s = allIds s \ evaluate q s := by
  refine ⟨?_, by simp only [evaluate, evalAnd], by simp only [evaluate, evalOr],
    by simp only [evaluate]⟩
  simp only [evaluate]
  exact Finset.sdiff_sdiff_eq_self (eval_subset q s)

/-! ### Tree codec: flatten / unflatten correctness and zip-combine -/

mutual

theorem Tree.flatten_length : ∀ t : Tree,
    t.flatten.length = t.shape.leafCount
  | .leaf v => rfl
  | .mapping es => by
      simp only [Tree.flatten, Tree.shape, Shape.leafCount]
      exact flattenEntries_length es
  | .sequence ts => by
      simp only [Tree.flatten, Tree.shape, Shape.leafCount]
      exact flattenMany_length ts

theorem flattenEntries_length : ∀ es : List (String × Tree),
    (flattenEntries es).length = leafCountEntries (shapeEntries es)
  | [] => rfl
  | e :: es => by
      simp only [flattenEntries, shapeEntries, leafCountEntries,
        List.length_append]
      rw [Tree.flatten_length e.2, flattenEntries_length es]

theorem flattenMany_length : ∀ ts : List Tree,
    (flattenMany ts).length = leafCountMany (shapeMany ts)
  | [] => rfl
  | t :: ts => by
      simp only [flattenMany, shapeMany, leafCountMany, List.length_append]
      rw [Tree.flatten_length t, flattenMany_length ts]

end

mutual

theorem unflattenS_spec : ∀ (sh : Shape) (ls : List Int),
    sh.leafCount ≤ ls.length →
    ∃ t rest, unflattenS sh ls = some (t, rest) ∧ t.shape = sh ∧
      ls = t.flatten ++ rest
  | .leaf, ls, h => by
      cases ls with
      | nil => simp [Shape.leafCount] at h
      | cons v rest => exact ⟨.leaf v, rest, rfl, rfl, rfl⟩
  | .mapping es, ls, h => by
      obtain ⟨res, rest, h1, h2, h3⟩ := unflattenEntries_spec es ls
        (by simpa only [Shape.leafCount] using h)
      refine ⟨.mapping res, rest, ?_, ?_, ?_⟩
      · simp only [unflattenS, h1]
      · simp only [Tree.shape, h2]
      · simp only [Tree.flatten, h3]
  | .sequence ss, ls, h => by
      obtain ⟨res, rest, h1, h2, h3⟩ := unflattenMany_spec ss ls
        (by simpa only [Shape.leafCount] using h)
      refine ⟨.sequence res, rest, ?_, ?_, ?_⟩
      · simp only [unflattenS, h1]
      · simp only [Tree.shape, h2]
      · simp only [Tree.flatten, h3]

theorem unflattenEntries_spec : ∀ (es : List (String × Shape)) (ls : List Int),
    leafCountEntries es ≤ ls.length →
    ∃ res rest, unflattenEntries es ls = some (res, rest) ∧
      shapeEntries res = es ∧ ls = flattenEntries res ++ rest
  | [], ls, _ => ⟨[], ls, rfl, rfl, rfl⟩
  | e :: es, ls, h => by
      have h1 : e.2.leafCount ≤ ls.length := by
        simp only [leafCountEntries] at h
        omega
      obtain ⟨t, rest1, hu, hsh, hls⟩ := unflattenS_spec e.2 ls h1
      have h2 : leafCountEntries es ≤ rest1.length := by
        have hlen : ls.length = t.flatten.length + rest1.length := by
          rw [hls, List.length_append]
        have hflen : t.flatten.length = e.2.leafCount := by
          rw [Tree.flatten_length t, hsh]
        simp only [leafCountEntries] at h
        omega
      obtain ⟨res, rest2, hu2, hsh2, hls2⟩ := unflattenEntries_spec es rest1 h2
      refine ⟨(e.1, t) :: res, rest2, ?_, ?_, ?_⟩
      · simp only [unflattenEntries, hu, hu2]
      · simp only [shapeEntries, hsh, hsh2, Prod.mk.eta]
      · simp only [flattenEntries, hls, hls2, List.append_assoc]

theorem unflattenMany_spec : ∀ (ss : List Shape) (ls : List Int),
    leafCountMany ss ≤ ls.length →
    ∃ res rest, unflattenMany ss ls = some (res, rest) ∧
      shapeMany res = ss ∧ ls = flattenMany res ++ rest
  | [], ls, _ => ⟨[], ls, rfl, rfl, rfl⟩
  | s :: ss, ls, h => by
      have h1 : s.leafCount ≤ ls.length := by
        simp only [leafCountMany] at h
        omega
      obtain ⟨t, rest1, hu, hsh, hls⟩ := unflattenS_spec s ls h1
      have h2 : leafCountMany ss ≤ rest1.length := by
        have hlen : ls.length = t.flatten.length + rest1.length := by
          rw [hls, List.length_append]
        have hflen : t.flatten.length = s.leafCount := by
          rw [Tree.flatten_length t, hsh]
        simp only [leafCountMany] at h
        omega
      obtain ⟨res, rest2, hu2, hsh2, hls2⟩ := unflattenMany_spec ss rest1 h2
      refine ⟨t :: res, rest2, ?_, ?_, ?_⟩
      · simp only [unflattenMany, hu, hu2]
      · simp only [shapeMany, hsh, hsh2]
      · simp only [flattenMany, hls, hls2, List.append_assoc]

end

theorem unflatten_spec (sh : Shape) (ls : List Int)
    (h : ls.length = sh.leafCount) :
    ∃ t, unflatten sh ls = some t ∧ t.shape = sh ∧ t.flatten = ls := by
  obtain ⟨t, rest, h1, h2, h3⟩ := unflattenS_spec sh ls (le_of_eq h.symm)
  have hflen : t.flatten.length = sh.leafCount := by
    rw [Tree.flatten_length, h2]
  have hrest : rest = [] := by
    have hlen2 := congrArg List.length h3
    rw [List.length_append] at hlen2
    have hzero : rest.length = 0 := by omega
    exact List.eq_nil_of_length_eq_zero hzero
  subst hrest
  refine ⟨t, ?_, h2, by rw [h3, List.append_nil]⟩
  unfold unflatten
  rw [h1]

/-- C8: combining structurally identical trees applies the combine function
at each leaf position to the ordered list of per-tree leaf values and
returns the combined tree without persisting it; in scenario C, combining
the stored trees with leaves [1,2], [4,5], [7,8] by the mean yields the
tree with leaves [4,5] and the stored originals are unmodified. -/
theorem combine_snapshots_spec (m : SnapshotManager) (ids : List String)
    (f : List Int → Int) (t0 : Tree) (rest : List Tree)
    (hcol : collectTrees m ids = .ok (t0 :: rest))
    (hsh : ∀ u ∈ rest, u.shape = t0.shape) :
    (∃ tr, m.combine_snapshots ids f = .ok tr ∧ tr.shape = t0.shape ∧
      tr.flatten = (List.range t0.shape.leafCount).map
        (fun k => f ((t0 :: rest).map (fun u => u.flatten.getD k 0)))) ∧
    mgrComb.combine_snapshots ["snapA", "snapB", "snapC"] meanFn =
      .ok (treeC 4 5) ∧
    mgrComb.get_snapshot "snapA" = .ok (treeC 1 2) ∧
    mgrComb.get_snapshot "snapB" = .ok (treeC 4 5) ∧
    mgrComb.get_snapshot "snapC" = .ok (treeC 7 8) := by
  refine ⟨?_, rfl, rfl, rfl, rfl⟩
  have hall : (rest.all fun u => decide (u.shape = t0.shape)) = true :=
    List.all_eq_true.mpr (fun u hu => decide_eq_true (hsh u hu))
  have hlen : ((List.range t0.shape.leafCount).map
      (fun k => f (((t0 :: rest).map Tree.flatten).map
        (fun ls => ls.getD k 0)))).length = t0.shape.leafCount := by
    rw [List.length_map, List.length_range]
  obtain ⟨tr, huf, hshape, hflat⟩ := unflatten_spec t0.shape _ hlen
  have hcomb : m.combine_snapshots ids f = zip_combine (t0 :: rest) f := by
    unfold SnapshotManager.combine_snapshots
    rw [hcol]
  refine ⟨tr, ?_, hshape, ?_⟩
  · rw [hcomb]
    simp only [zip_combine]
    rw [if_pos hall, huf]
  · rw [hflat]
    simp only [List.map_map]
    rfl

/-- Witness for C8 at scenario C: the three stored two-leaf trees combined
by the mean. -/
theorem combine_snapshots_spec_witness :
    (∃ tr, mgrComb.combine_snapshots ["snapA", "snapB", "snapC"] meanFn =
        .ok tr ∧ tr.shape = (treeC 1 2).shape ∧
      tr.flatten = (List.range (treeC 1 2).shape.leafCount).map
        (fun k => meanFn ((treeC 1 2 :: [treeC 4 5, treeC 7 8]).map
          (fun u => u.flatten.getD k 0)))) ∧
    mgrComb.combine_snapshots ["snapA", "snapB", "snapC"] meanFn =
      .ok (treeC 4 5) ∧
    mgrComb.get_snapshot "snapA" = .ok (treeC 1 2) ∧
    mgrComb.get_snapshot "snapB" = .ok (treeC 4 5) ∧
    mgrComb.get_snapshot "snapC" = .ok (treeC 7 8) :=
  combine_snapshots_spec mgrComb ["snapA", "snapB", "snapC"] meanFn
    (treeC 1 2) [treeC 4 5, treeC 7 8] rfl (by decide)

/-! ### Persistence round trip -/

/-- C6: `load_state` of `save_state` reconstructs a manager equal to the
original — hence equal ranked snapshots, equal snapshot ordering, and every
record (id, metadata, tags, tree) round-trips exactly.  The hypothesis is
the store well-formedness fact that every mapping key is its record's id. -/
theorem persistence_roundtrip (m : SnapshotManager)
    (hkeys : ∀ e ∈ m.storage.snapshots, e.1 = e.2.id) :
    (SnapshotManager.load_state m.save_state).get_ranked_snapshots =
        m.get_ranked_snapshots ∧
    (SnapshotManager.load_state m.save_state).storage.snapshot_order =
        m.storage.snapshot_order ∧
    ∀ id, (SnapshotManager.load_state m.save_state).storage.findRecord id =
        m.storage.findRecord id := by
  have hload : SnapshotManager.load_state m.save_state = m := by
    obtain ⟨⟨o, sn, mx, cf⟩, ns, ic, dcs, dcr⟩ := m
    simp only at hkeys
    have hrec : (sn.map (fun e => e.2)).map (fun r => (r.id, r)) = sn := by
      rw [List.map_map]
      have hcongr : ∀ e ∈ sn, ((fun r => (r.id, r)) ∘ (fun e => e.2)) e =
          id e := by
        intro e he
        simp only [Function.comp, id]
        rw [← hkeys e he]
      rw [List.map_congr_left hcongr, List.map_id]
    simp [SnapshotManager.load_state, SnapshotManager.save_state,
      SnapshotStore.records, hrec]
  rw [hload]
  exact ⟨rfl, rfl, fun id => rfl⟩

/-- Witness for C6 at a concrete input: the two-snapshot manager of the
persistence tests. -/
theorem persistence_roundtrip_witness :
    (SnapshotManager.load_state mgrP.save_state).get_ranked_snapshots =
        mgrP.get_ranked_snapshots ∧
    (SnapshotManager.load_state mgrP.save_state).storage.snapshot_order =
        mgrP.storage.snapshot_order ∧
    ∀ id, (SnapshotManager.load_state mgrP.save_state).storage.findRecord id =
        mgrP.storage.findRecord id :=
  persistence_roundtrip mgrP (by decide)

/-! ### FIFO eviction without a comparator -/

theorem insertAll_cons (s : SnapshotStore) (r : SnapshotRecord)
    (rs : List SnapshotRecord) :
    insertAll s (r :: rs) = insertAll (s.insert r) rs := rfl

theorem insert_cmp_eq (s : SnapshotStore) (r : SnapshotRecord) :
    (s.insert r).cmp_function = s.cmp_function := by
  unfold SnapshotStore.insert
  by_cases hlt : s.snapshot_order.length < s.max_snapshots
  · rw [if_pos hlt]
    rfl
  · rw [if_neg hlt]
    split
    · split <;> rfl
    · split
      · rfl
      · split <;> rfl

theorem insert_below (s : SnapshotStore) (r : SnapshotRecord)
    (hlt : s.snapshot_order.length < s.max_snapshots) :
    s.insert r = s.appendRecord r := by
  unfold SnapshotStore.insert
  rw [if_pos hlt]

theorem insert_at_capacity_nocmp (s : SnapshotStore) (r : SnapshotRecord)
    (hlt : ¬ s.snapshot_order.length < s.max_snapshots)
    (hcmp : s.cmp_function = none) (e : String × SnapshotRecord)
    (ho : oldestEntry s.snapshots = some e) :
    s.insert r = (s.removeId e.1).appendRecord r := by
  unfold SnapshotStore.insert
  rw [if_neg hlt]
  simp only [hcmp, ho]

theorem foldl_min_of_sorted :
    ∀ (es : List (String × SnapshotRecord)) (a : String × SnapshotRecord),
      (∀ x ∈ es, a.2.insertion_seq < x.2.insertion_seq) →
      es.foldl (fun m x =>
        if x.2.insertion_seq < m.2.insertion_seq then x else m) a = a := by
  intro es
  induction es with
  | nil =>
      intro a _
      rfl
  | cons x es ih =>
      intro a h
      simp only [List.foldl_cons]
      rw [if_neg (Nat.lt_asymm (h x (List.mem_cons_self x es)))]
      exact ih a (fun y hy => h y (List.mem_cons_of_mem x hy))

/-- C3: with no comparator, inserting at full capacity evicts the record
with the smallest insertion counter (the oldest) and appends the new one;
folded over any run of fresh seq-increasing records, the store retains
exactly the newest capacity-many records of the combined run — the records
beyond capacity evicted are exactly the oldest ones. -/
theorem fifo_eviction_drops_oldest :
    ∀ (rs : List SnapshotRecord) (s : SnapshotStore),
      s.cmp_function = none → 1 ≤ s.max_snapshots → Wf s →
      List.Pairwise (fun a b => a.2.insertion_seq < b.2.insertion_seq)
        (s.snapshots ++ rs.map (fun r => (r.id, r))) →
      ((s.snapshots ++ rs.map (fun r => (r.id, r))).map (fun e => e.1)).Nodup →
      (insertAll s rs).snapshots =
        (s.snapshots ++ rs.map (fun r => (r.id, r))).drop
          (s.snapshots.length + rs.length - s.max_snapshots) ∧
      (insertAll s rs).snapshot_order =
        ((insertAll s rs).snapshots).map (fun e => e.1) := by
  intro rs
  induction rs with
  | nil =>
      intro s hcmp hmax hwf hseq hids
      have hlen : s.snapshots.length = s.snapshot_order.length := by
        rw [hwf.1, List.length_map]
      have hle : s.snapshots.length ≤ s.max_snapshots := by
        rw [hlen]
        exact hwf.2.2
      constructor
      · simp only [List.map_nil, List.append_nil, List.length_nil]
        have hidx : s.snapshots.length + 0 - s.max_snapshots = 0 := by omega
        rw [hidx, List.drop_zero]
        rfl
      · exact hwf.1
  | cons r rs ih =>
      intro s hcmp hmax hwf hseq hids
      have hfreshr : r.id ∉ s.ids := by
        have h2 := hids
        rw [List.map_cons, List.map_append, List.map_cons] at h2
        intro hmem
        exact (List.nodup_append.mp h2).2.2 hmem (List.mem_cons_self _ _)
      have hwf2 : Wf (s.insert r) := Wf_insert s r hwf hmax hfreshr
      have hcmp2 : (s.insert r).cmp_function = none := by
        rw [insert_cmp_eq]
        exact hcmp
      have hmax2 : 1 ≤ (s.insert r).max_snapshots := by
        rw [insert_max_eq]
        exact hmax
      by_cases hlt : s.snapshot_order.length < s.max_snapshots
      · -- below capacity: plain append
        have hins : s.insert r = s.appendRecord r := insert_below s r hlt
        have hsnap : (s.insert r).snapshots = s.snapshots ++ [(r.id, r)] := by
          rw [hins]
          rfl
        have hlistA : s.snapshots ++ (r :: rs).map (fun x => (x.id, x)) =
            (s.snapshots ++ [(r.id, r)]) ++ rs.map (fun x => (x.id, x)) := by
          rw [List.map_cons, List.append_assoc]
          rfl
        obtain ⟨g1, g2⟩ := ih (s.insert r) hcmp2 hmax2 hwf2
          (by rw [hsnap, ← hlistA]; exact hseq)
          (by rw [hsnap, ← hlistA]; exact hids)
        constructor
        · rw [insertAll_cons, g1, hsnap, insert_max_eq, hlistA]
          have hidx : (s.snapshots ++ [(r.id, r)]).length + rs.length -
              s.max_snapshots =
              s.snapshots.length + (r :: rs).length - s.max_snapshots := by
            simp only [List.length_append, List.length_singleton,
              List.length_cons, List.length_nil]
            omega
          rw [hidx]
        · rw [insertAll_cons]
          exact g2
      · -- at capacity: evict the oldest, then append
        have hfull : s.snapshot_order.length = s.max_snapshots :=
          le_antisymm hwf.2.2 (not_lt.mp hlt)
        cases hsn : s.snapshots with
        | nil =>
            exfalso
            have hord : s.snapshot_order = [] := by
              rw [hwf.1, hsn]
              rfl
            rw [hord] at hfull
            simp at hfull
            omega
        | cons hd tl =>
            have hsorted : ∀ x ∈ tl, hd.2.insertion_seq < x.2.insertion_seq := by
              have hp := (List.pairwise_append.mp hseq).1
              rw [hsn] at hp
              exact (List.pairwise_cons.mp hp).1
            have holdest : oldestEntry s.snapshots = some hd := by
              rw [hsn]
              simp only [oldestEntry]
              rw [foldl_min_of_sorted tl hd hsorted]
            have hins : s.insert r = (s.removeId hd.1).appendRecord r :=
              insert_at_capacity_nocmp s r hlt hcmp hd holdest
            have hd_not_tl : hd.1 ∉ tl.map (fun e => e.1) := by
              have h2 := hwf.2.1
              rw [hwf.1, hsn, List.map_cons] at h2
              exact (List.nodup_cons.mp h2).1
            have hfilter : s.snapshots.filter (fun p => decide (p.1 ≠ hd.1)) =
                tl := by
              rw [hsn, List.filter_cons, if_neg (by simp)]
              apply List.filter_eq_self.mpr
              intro a ha
              simp only [decide_eq_true_eq]
              intro heq
              exact hd_not_tl (List.mem_map.mpr ⟨a, ha, heq⟩)
            have hsnap : (s.insert r).snapshots = tl ++ [(r.id, r)] := by
              rw [hins]
              show s.snapshots.filter (fun p => decide (p.1 ≠ hd.1)) ++
                [(r.id, r)] = tl ++ [(r.id, r)]
              rw [hfilter]
            have hlist2 : (tl ++ [(r.id, r)]) ++ rs.map (fun x => (x.id, x)) =
                tl ++ (r.id, r) :: rs.map (fun x => (x.id, x)) := by
              rw [List.append_assoc]
              rfl
            have horig : s.snapshots ++ (r :: rs).map (fun x => (x.id, x)) =
                hd :: (tl ++ (r.id, r) :: rs.map (fun x => (x.id, x))) := by
              rw [hsn, List.map_cons]
              rfl
            have hseq2 : List.Pairwise
                (fun a b => a.2.insertion_seq < b.2.insertion_seq)
                ((s.insert r).snapshots ++ rs.map (fun x => (x.id, x))) := by
              rw [hsnap, hlist2]
              have h2 := hseq
              rw [horig] at h2
              exact (List.pairwise_cons.mp h2).2
            have hids2 : (((s.insert r).snapshots ++
                rs.map (fun x => (x.id, x))).map (fun e => e.1)).Nodup := by
              rw [hsnap, hlist2]
              have h2 := hids
              rw [horig, List.map_cons] at h2
              exact (List.nodup_cons.mp h2).2
            obtain ⟨g1, g2⟩ := ih (s.insert r) hcmp2 hmax2 hwf2 hseq2 hids2
            have hcap : tl.length + 1 = s.max_snapshots := by
              have h3 : s.snapshot_order.length = tl.length + 1 := by
                rw [hwf.1, hsn]
                simp
              omega
            constructor
            · rw [insertAll_cons, g1, hsnap, insert_max_eq, hlist2]
              have hidx1 : (tl ++ [(r.id, r)]).length + rs.length -
                  s.max_snapshots = rs.length := by
                simp only [List.length_append, List.length_singleton]
                omega
              have hidx2 : (hd :: tl).length + (r :: rs).length -
                  s.max_snapshots = rs.length + 1 := by
                simp only [List.length_cons]
                omega
              have horig2 : (hd :: tl) ++ (r :: rs).map (fun x => (x.id, x)) =
                  hd :: (tl ++ (r.id, r) :: rs.map (fun x => (x.id, x))) := by
                rw [List.map_cons]
                rfl
              rw [hidx1, hidx2, horig2, List.drop_succ_cons]
            · rw [insertAll_cons]
              exact g2

/-- Witness for C3 at a concrete input: three seq-increasing records folded
into an empty capacity-2 store; the oldest record is evicted and the two
newest survive. -/
theorem fifo_eviction_drops_oldest_witness :
    (insertAll fifoStore fifoRecs).snapshots =
      (fifoStore.snapshots ++ fifoRecs.map (fun r => (r.id, r))).drop
        (fifoStore.snapshots.length + fifoRecs.length -
          fifoStore.max_snapshots) ∧
    (insertAll fifoStore fifoRecs).snapshot_order =
      ((insertAll fifoStore fifoRecs).snapshots).map (fun e => e.1) :=
  fifo_eviction_drops_oldest fifoRecs fifoStore rfl (by decide)
    ⟨rfl, List.nodup_nil, by decide⟩ (by decide) (by decide)

end SnapshotMgr
